import Mathlib

/-!
Verification of the vstat streaming-statistics core: a shallow embedding of the
scalar accumulators (univariate.hpp, bivariate.hpp), the Schubert-Gertz pairwise
combine algorithm (combine.hpp) and the vectorized accumulation driver
(vstat.hpp), with theorems settling the specified properties.  Floating-point
`double` arithmetic is embedded as exact rational arithmetic; division is the
total rational division of Lean (x / 0 = 0), which agrees with the IEEE code
exactly wherever the divisor is nonzero.  Where the source can divide by zero
(IEEE NaN/inf), companion definitions (`updateW_divisor`, `updateW?`,
`updateW_fdenom`, `combine4_denoms`) expose the zero-divisor event explicitly,
modelling the non-finite result as `none`.
-/

namespace Vstat

/-- Univariate accumulator state, from `univariate_accumulator<T>`:
fields `sum_w{0}`, `sum_w_old{1}`, `sum_x{0}`, `sum_xx{0}`. -/
structure univariate_accumulator where
  sum_w : ℚ
  sum_w_old : ℚ
  sum_x : ℚ
  sum_xx : ℚ
deriving DecidableEq, Repr

/-- The default-constructed (empty) univariate accumulator. -/
def ufresh : univariate_accumulator := ⟨0, 1, 0, 0⟩

/-- `univariate_accumulator<T>::load_state(sw, sx, sxx)`: both `sum_w` and
`sum_w_old` are set to `sw`. -/
def univariate_accumulator.load_state (sw sx sxx : ℚ) : univariate_accumulator :=
  ⟨sw, sw, sx, sxx⟩

/-- Unweighted update `operator()(T x)`:
`dx = sum_w * x - sum_x; sum_x += x; sum_w += 1;
 sum_xx += dx * dx / (sum_w * sum_w_old); sum_w_old = sum_w;`. -/
def univariate_accumulator.update (st : univariate_accumulator) (x : ℚ) :
    univariate_accumulator :=
  let dx := st.sum_w * x - st.sum_x
  let sum_x := st.sum_x + x
  let sum_w := st.sum_w + 1
  let sum_xx := st.sum_xx + dx * dx / (sum_w * st.sum_w_old)
  ⟨sum_w, sum_w, sum_x, sum_xx⟩

/-- Weighted update `operator()(T x, T w)`:
`x *= w; dx = sum_w * x - sum_x * w; sum_x += x; sum_w += w;
 sum_xx += dx * dx / (w * sum_w * sum_w_old); sum_w_old = sum_w;`.
There is no branch skipping `w == 0`: the division always executes.  Its
divisor is zero whenever `w = 0`, where the IEEE code computes `0/0 = NaN`
while this total-division model adds 0; `updateW?` makes that error path
explicit, and theorems relying on this plain version establish a positive
divisor. -/
def univariate_accumulator.updateW (st : univariate_accumulator) (x w : ℚ) :
    univariate_accumulator :=
  let x' := x * w
  let dx := st.sum_w * x' - st.sum_x * w
  let sum_x := st.sum_x + x'
  let sum_w := st.sum_w + w
  let sum_xx := st.sum_xx + dx * dx / (w * sum_w * st.sum_w_old)
  ⟨sum_w, sum_w, sum_x, sum_xx⟩

/-- `stats()` of a scalar accumulator: the tuple `(sum_w, sum_x, sum_xx)`. -/
def univariate_accumulator.stats (st : univariate_accumulator) : ℚ × ℚ × ℚ :=
  (st.sum_w, st.sum_x, st.sum_xx)

/-- Result struct `univariate_statistics`. -/
structure univariate_statistics where
  count : ℚ
  sum : ℚ
  ssr : ℚ
  mean : ℚ
  variance : ℚ
  sample_variance : ℚ
deriving DecidableEq, Repr

/-- The `univariate_statistics` constructor: derives the result fields from the
`(sum_w, sum_x, sum_xx)` tuple returned by `stats()`. -/
def mk_univariate_statistics : ℚ × ℚ × ℚ → univariate_statistics
  | (sw, sx, sxx) => ⟨sw, sx, sxx, sx / sw, sxx / sw, sxx / (sw - 1)⟩

/-- Bivariate accumulator state, from `bivariate_accumulator<T>`. -/
structure bivariate_accumulator where
  sum_w : ℚ
  sum_w_old : ℚ
  sum_x : ℚ
  sum_y : ℚ
  sum_xx : ℚ
  sum_yy : ℚ
  sum_xy : ℚ
deriving DecidableEq, Repr

/-- The default-constructed (empty) bivariate accumulator. -/
def bfresh : bivariate_accumulator := ⟨0, 1, 0, 0, 0, 0, 0⟩

/-- `bivariate_accumulator<T>::load_state(sx, sy, sw, sxx, syy, sxy)` (note the
argument order of the source). -/
def bivariate_accumulator.load_state (sx sy sw sxx syy sxy : ℚ) : bivariate_accumulator :=
  ⟨sw, sw, sx, sy, sxx, syy, sxy⟩

/-- Unweighted bivariate update `operator()(T x, T y)`. -/
def bivariate_accumulator.update (st : bivariate_accumulator) (x y : ℚ) :
    bivariate_accumulator :=
  let dx := x * st.sum_w - st.sum_x
  let dy := y * st.sum_w - st.sum_y
  let sum_w := st.sum_w + 1
  let f := 1 / (sum_w * st.sum_w_old)
  let sum_xx := st.sum_xx + f * dx * dx
  let sum_yy := st.sum_yy + f * dy * dy
  let sum_xy := st.sum_xy + f * dx * dy
  let sum_x := st.sum_x + x
  let sum_y := st.sum_y + y
  ⟨sum_w, sum_w, sum_x, sum_y, sum_xx, sum_yy, sum_xy⟩

/-- Weighted bivariate update `operator()(T x, T y, T w)`.  The factor
`f = w / (sum_w * sum_w_old)` divides unconditionally; from the fresh state
with `w = 0` its divisor is zero (IEEE `0/0 = NaN` poisoning all residuals,
total division here yields `f = 0`); `bivariate_accumulator.updateW?` makes
that error path explicit. -/
def bivariate_accumulator.updateW (st : bivariate_accumulator) (x y w : ℚ) :
    bivariate_accumulator :=
  let dx := x * st.sum_w - st.sum_x
  let dy := y * st.sum_w - st.sum_y
  let sum_x := st.sum_x + x * w
  let sum_y := st.sum_y + y * w
  let sum_w := st.sum_w + w
  let f := w / (sum_w * st.sum_w_old)
  let sum_xx := st.sum_xx + f * dx * dx
  let sum_yy := st.sum_yy + f * dy * dy
  let sum_xy := st.sum_xy + f * dx * dy
  ⟨sum_w, sum_w, sum_x, sum_y, sum_xx, sum_yy, sum_xy⟩

/-- `stats()` of a scalar bivariate accumulator:
`(sum_w, sum_x, sum_y, sum_xx, sum_yy, sum_xy)`. -/
def bivariate_accumulator.stats (st : bivariate_accumulator) :
    ℚ × ℚ × ℚ × ℚ × ℚ × ℚ :=
  (st.sum_w, st.sum_x, st.sum_y, st.sum_xx, st.sum_yy, st.sum_xy)

/-- `detail::square`. -/
def square (a : ℚ) : ℚ := a * a

/-- Univariate `combine` from combine.hpp.  The first argument `k` encodes the
SIMD width `4 * 2 ^ k` of the three lane vectors (the source dispatches on
`T::size()` at compile time): `k = 0` is the 4-lane base case, `k + 1` slices
the lanes into two halves of width `4 * 2 ^ k`, combines each half recursively
and merges the halves with the pairwise Schubert-Gertz formula.  Horizontal
reduction (`eve::reduce`) is the plain lane sum.  The `f` factors divide by
products of lane-weight sums with no guard: at a zero lane weight the IEEE
code computes `1/0 = inf` (and possibly `inf * 0 = NaN`) where this total
division yields 0; `combine4_denoms` names the base-case divisors so that the
zero-divisor event is statable. -/
def combineUni : ℕ → List ℚ → List ℚ → List ℚ → ℚ
  | 0, n0 :: n1 :: n2 :: n3 :: _, s0 :: s1 :: s2 :: s3 :: _, q0 :: q1 :: q2 :: q3 :: _ =>
    let n01 := n0 + n1
    let s01 := s0 + s1
    let n23 := n2 + n3
    let s23 := s2 + s3
    let f01 := 1 / (n0 * n01 * n1)
    let f23 := 1 / (n2 * n23 * n3)
    let f := 1 / (n01 * (n01 + n23) * n23)
    let q01 := q0 + q1 + f01 * square (n0 * s1 - n1 * s0)
    let q23 := q2 + q3 + f23 * square (n2 * s3 - n3 * s2)
    q01 + q23 + f * square (n01 * s23 - n23 * s01)
  | 0, _, _, _ => 0
  | k + 1, ns, ss, qs =>
    let h := 4 * 2 ^ k
    let s0 := (ss.take h).sum
    let s1 := (ss.drop h).sum
    let q0 := combineUni k (ns.take h) (ss.take h) (qs.take h)
    let q1 := combineUni k (ns.drop h) (ss.drop h) (qs.drop h)
    let n0 := (ns.take h).sum
    let n1 := (ns.drop h).sum
    let f := 1 / (n0 * n1 * (n0 + n1))
    q0 + q1 + f * square (n1 * s0 - n0 * s1)

/-- Bivariate `combine` from combine.hpp, returning `(sum_xx, sum_yy, sum_xy)`;
same width encoding as `combineUni`. -/
def combineBiv : ℕ → List ℚ → List ℚ → List ℚ → List ℚ → List ℚ → List ℚ →
    ℚ × ℚ × ℚ
  | 0, n0 :: n1 :: n2 :: n3 :: _, sx0 :: sx1 :: sx2 :: sx3 :: _,
      sy0 :: sy1 :: sy2 :: sy3 :: _, sxx0 :: sxx1 :: sxx2 :: sxx3 :: _,
      syy0 :: syy1 :: syy2 :: syy3 :: _, sxy0 :: sxy1 :: sxy2 :: sxy3 :: _ =>
    let n01 := n0 + n1
    let sx01 := sx0 + sx1
    let sy01 := sy0 + sy1
    let n23 := n2 + n3
    let sx23 := sx2 + sx3
    let sy23 := sy2 + sy3
    let f01 := 1 / (n0 * n01 * n1)
    let f23 := 1 / (n2 * n23 * n3)
    let f := 1 / (n01 * (n01 + n23) * n23)
    let qx01 := sxx0 + sxx1 + f01 * square (n0 * sx1 - n1 * sx0)
    let qx23 := sxx2 + sxx3 + f23 * square (n2 * sx3 - n3 * sx2)
    let sxx := qx01 + qx23 + f * square (n01 * sx23 - n23 * sx01)
    let qy01 := syy0 + syy1 + f01 * square (n0 * sy1 - n1 * sy0)
    let qy23 := syy2 + syy3 + f23 * square (n2 * sy3 - n3 * sy2)
    let syy := qy01 + qy23 + f * square (n01 * sy23 - n23 * sy01)
    let q01 := sxy0 + sxy1 + f01 * ((n1 * sx0 - n0 * sx1) * (n1 * sy0 - n0 * sy1))
    let q23 := sxy2 + sxy3 + f23 * ((n3 * sx2 - n2 * sx3) * (n3 * sy2 - n2 * sy3))
    let sxy := q01 + q23 + f * ((n23 * sx01 - n01 * sx23) * (n23 * sy01 - n01 * sy23))
    (sxx, syy, sxy)
  | 0, _, _, _, _, _, _ => (0, 0, 0)
  | k + 1, ns, sxs, sys, sxxs, syys, sxys =>
    let h := 4 * 2 ^ k
    let p0 := combineBiv k (ns.take h) (sxs.take h) (sys.take h)
      (sxxs.take h) (syys.take h) (sxys.take h)
    let p1 := combineBiv k (ns.drop h) (sxs.drop h) (sys.drop h)
      (sxxs.drop h) (syys.drop h) (sxys.drop h)
    let n0 := (ns.take h).sum
    let n1 := (ns.drop h).sum
    let sx0 := (sxs.take h).sum
    let sx1 := (sxs.drop h).sum
    let sy0 := (sys.take h).sum
    let sy1 := (sys.drop h).sum
    let f := 1 / (n0 * n1 * (n0 + n1))
    let sx := n0 * sx1 - n1 * sx0
    let sy := n0 * sy1 - n1 * sy0
    (p0.1 + p1.1 + f * sx * sx, p0.2.1 + p1.2.1 + f * sy * sy,
      p0.2.2 + p1.2.2 + f * sx * sy)

/-- A width-`s` vector accumulator is the list of its `s` per-lane scalar
states; the wide arithmetic of `operator()(T x)` acts lanewise. -/
def vupdate (lanes : List univariate_accumulator) (chunk : List ℚ) :
    List univariate_accumulator :=
  List.zipWith univariate_accumulator.update lanes chunk

/-- `stats()` of a vector accumulator of width `4 * 2 ^ k`:
`{ horizontal_add(sum_w), horizontal_add(sum_x), combine(sum_w, sum_x, sum_xx) }`. -/
def vstats (k : ℕ) (lanes : List univariate_accumulator) : ℚ × ℚ × ℚ :=
  ((lanes.map univariate_accumulator.sum_w).sum,
    (lanes.map univariate_accumulator.sum_x).sum,
    combineUni k (lanes.map univariate_accumulator.sum_w)
      (lanes.map univariate_accumulator.sum_x)
      (lanes.map univariate_accumulator.sum_xx))

/-- The bulk loop `for (i = 0; i < m; i += s) { acc(load(first)); advance(s, first); }`
of `univariate::accumulate`, with the iteration count `m / s` made explicit:
each iteration loads the next `s` elements of the iterator into the vector
accumulator and advances the iterator.  Returns the accumulator and the
remaining iterator. -/
def bulkLoop (s : ℕ) : ℕ → List univariate_accumulator → List ℚ →
    List univariate_accumulator × List ℚ
  | 0, acc, iter => (acc, iter)
  | t + 1, acc, iter => bulkLoop s t (vupdate acc (iter.take s)) (iter.drop s)

/-- The driver `univariate::accumulate` (unweighted), from vstat.hpp: SIMD
width `s = 4 * 2 ^ k`, `n` the input length, `m = n - n % s`.  If `n < s`,
a scalar accumulator takes every element; otherwise the bulk loop feeds the
vector accumulator, and the remainder (if any) goes through a scalar
accumulator seeded via `load_state` from the vector accumulator reduction. -/
def accumulate (k : ℕ) (xs : List ℚ) : univariate_statistics :=
  let s := 4 * 2 ^ k
  let n := xs.length
  let m := n - n % s
  if n < s then
    mk_univariate_statistics (xs.foldl univariate_accumulator.update ufresh).stats
  else
    let p := bulkLoop s (m / s) (List.replicate s ufresh) xs
    if m < n then
      let t := vstats k p.1
      mk_univariate_statistics
        ((p.2.foldl univariate_accumulator.update
          (univariate_accumulator.load_state t.1 t.2.1 t.2.2)).stats)
    else
      mk_univariate_statistics (vstats k p.1)

/-- Splits a list into `t` consecutive chunks of `s` elements each. -/
def chunksOf (s : ℕ) : ℕ → List ℚ → List (List ℚ)
  | 0, _ => []
  | t + 1, l => l.take s :: chunksOf s t (l.drop s)

/-- The driver as the specification describes it: if `n < s` every element goes
directly into a scalar accumulator; otherwise exactly the first `m = n - n % s`
elements are fed to the vector accumulator in consecutive length-`s` chunks,
and then either the remaining `n - m` elements are fed one at a time to a
scalar accumulator seeded from `stats()` via `load_state` (when `m < n`), or
the result is derived directly from the vector accumulator (when `m = n`). -/
def accumulate_claim (k : ℕ) (xs : List ℚ) : univariate_statistics :=
  let s := 4 * 2 ^ k
  let n := xs.length
  let m := n - n % s
  if n < s then
    mk_univariate_statistics (xs.foldl univariate_accumulator.update ufresh).stats
  else
    let acc := (chunksOf s (m / s) (xs.take m)).foldl vupdate (List.replicate s ufresh)
    if m < n then
      let t := vstats k acc
      mk_univariate_statistics
        (((xs.drop m).foldl univariate_accumulator.update
          (univariate_accumulator.load_state t.1 t.2.1 t.2.2)).stats)
    else
      mk_univariate_statistics (vstats k acc)

/-- Correlation as computed by the `bivariate_statistics` constructor:
`if (!(sxx > 0 && syy > 0)) correlation = (sxx == syy); else
 correlation = sxy / std::sqrt(sxx * syy);`. -/
noncomputable def correlation (sxx syy sxy : ℚ) : ℝ :=
  if ¬(sxx > 0 ∧ syy > 0) then (if sxx = syy then 1 else 0)
  else (sxy : ℝ) / Real.sqrt ((sxx * syy : ℚ) : ℝ)

/-- Correlation as the specification words it: `sum_xy / sqrt(sum_xx * sum_yy)`
except that when both `sum_xx` and `sum_yy` are nonpositive it is 1 if they are
equal and 0 otherwise. -/
noncomputable def correlation_claim (sxx syy sxy : ℚ) : ℝ :=
  if sxx ≤ 0 ∧ syy ≤ 0 then (if sxx = syy then 1 else 0)
  else (sxy : ℝ) / Real.sqrt ((sxx * syy : ℚ) : ℝ)

/-- Result struct `bivariate_statistics`; the correlation field carries the
square root and therefore lives in `ℝ`. -/
structure bivariate_statistics where
  count : ℚ
  sum_x : ℚ
  sum_y : ℚ
  ssr_x : ℚ
  ssr_y : ℚ
  sum_xy : ℚ
  mean_x : ℚ
  mean_y : ℚ
  variance_x : ℚ
  variance_y : ℚ
  sample_variance_x : ℚ
  sample_variance_y : ℚ
  correlation : ℝ
  covariance : ℚ
  sample_covariance : ℚ

/-- The `bivariate_statistics` constructor applied to a `stats()` tuple. -/
noncomputable def mk_bivariate_statistics : ℚ × ℚ × ℚ × ℚ × ℚ × ℚ →
    bivariate_statistics
  | (sw, sx, sy, sxx, syy, sxy) =>
    ⟨sw, sx, sy, sxx, syy, sxy, sx / sw, sy / sw, sxx / sw, syy / sw,
      sxx / (sw - 1), syy / (sw - 1), correlation sxx syy sxy,
      sxy / sw, sxy / (sw - 1)⟩

/-- Scalar bivariate accumulation over two value sequences consumed lock-step. -/
def baccumulate_scalar (xs ys : List ℚ) : bivariate_accumulator :=
  (xs.zip ys).foldl (fun st p => st.update p.1 p.2) bfresh

/-- Accumulator states reachable from the empty accumulator by valid updates:
unweighted updates and weighted updates with nonnegative weight. -/
inductive UReachable : univariate_accumulator → Prop where
  | fresh : UReachable ufresh
  | step (st : univariate_accumulator) (x : ℚ) :
      UReachable st → UReachable (st.update x)
  | stepW (st : univariate_accumulator) (x w : ℚ) :
      0 ≤ w → UReachable st → UReachable (st.updateW x w)

/-- The pairwise Schubert-Gertz merge formula, as stated by the specification:
merged residual `q = q0 + q1 + (n1*s0 - n0*s1)^2 / (n0 * n1 * (n0 + n1))`. -/
def pair_merge (n0 s0 q0 n1 s1 q1 : ℚ) : ℚ :=
  q0 + q1 + (n1 * s0 - n0 * s1) ^ 2 / (n0 * n1 * (n0 + n1))

/-- The bivariate cross-residual merge formula stated by the specification:
`q0 + q1 + f * (n1*sx0 - n0*sx1) * (n1*sy0 - n0*sy1)`. -/
def cross_merge (n0 sx0 sy0 q0 n1 sx1 sy1 q1 : ℚ) : ℚ :=
  q0 + q1 + (n1 * sx0 - n0 * sx1) * (n1 * sy0 - n0 * sy1) / (n0 * n1 * (n0 + n1))

/-- Sum of squares of a list of values. -/
def sumSq (l : List ℚ) : ℚ := (l.map fun x => x ^ 2).sum

/-- The residual sum of squares of a finite sample, in closed moment form:
`sum of squares - (sum)^2 / count`. -/
def Qm (l : List ℚ) : ℚ := sumSq l - l.sum ^ 2 / l.length

/-- The divisor `w * sum_w * sum_w_old` of the `sum_xx` division in the
weighted univariate update, with `sum_w` already incremented by `w`, exactly
as the source computes it on the line `sum_xx += dx * dx / (w * sum_w *
sum_w_old)`.  It is zero whenever `w = 0`. -/
def updateW_divisor (st : univariate_accumulator) (w : ℚ) : ℚ :=
  w * (st.sum_w + w) * st.sum_w_old

/-- The weighted univariate update with the IEEE error path made explicit: the
source divides by `updateW_divisor` unconditionally (no branch skips
`w == 0`), and when that divisor is zero the `double` division yields NaN
(`0/0`) or an infinity, so `sum_xx` is no longer a finite real — modelled by
`none`.  When the divisor is nonzero the IEEE quotient is finite and the
result is the state `updateW` computes. -/
def univariate_accumulator.updateW? (st : univariate_accumulator) (x w : ℚ) :
    Option univariate_accumulator :=
  if updateW_divisor st w = 0 then none else some (st.updateW x w)

/-- The divisor `sum_w * sum_w_old` of the factor `f = w / (sum_w *
sum_w_old)` in the weighted bivariate update, with `sum_w` already
incremented by `w`, exactly as the source computes it. -/
def updateW_fdenom (st : bivariate_accumulator) (w : ℚ) : ℚ :=
  (st.sum_w + w) * st.sum_w_old

/-- The weighted bivariate update with the IEEE error path made explicit:
when the divisor of `f` is zero the `double` division yields NaN or an
infinity and the residuals are no longer finite reals — modelled by `none`. -/
def bivariate_accumulator.updateW? (st : bivariate_accumulator) (x y w : ℚ) :
    Option bivariate_accumulator :=
  if updateW_fdenom st w = 0 then none else some (st.updateW x y w)

/-- The three divisors of the `f01`, `f23` and `f` factors in the width-4 base
case of `combine`, exactly as the source computes them; a zero value here
means the corresponding IEEE factor is `1/0 = inf` and the merged residual is
infinite or NaN. -/
def combine4_denoms (n0 n1 n2 n3 : ℚ) : ℚ × ℚ × ℚ :=
  (n0 * (n0 + n1) * n1, n2 * (n2 + n3) * n3,
    (n0 + n1) * ((n0 + n1) + (n2 + n3)) * (n2 + n3))

/-- Accumulator states reachable from the empty accumulator by unweighted
updates and weighted updates with strictly positive weight: on this domain
every divisor of the update formulas is provably positive, so the
exact-rational model and the IEEE code agree. -/
inductive UReachablePos : univariate_accumulator → Prop where
  | fresh : UReachablePos ufresh
  | step (st : univariate_accumulator) (x : ℚ) :
      UReachablePos st → UReachablePos (st.update x)
  | stepW (st : univariate_accumulator) (x w : ℚ) :
      0 < w → UReachablePos st → UReachablePos (st.updateW x w)

/-! ## Helper lemmas -/

theorem sumSq_append (a b : List ℚ) : sumSq (a ++ b) = sumSq a + sumSq b := by
  simp [sumSq]

theorem natCast_length_sum (ls : List (List ℚ)) :
    (ls.map fun l => (l.length : ℚ)).sum = (ls.flatten.length : ℚ) := by
  induction ls with
  | nil => simp
  | cons a as ih => simp [ih]

theorem sum_map_sum (ls : List (List ℚ)) : (ls.map List.sum).sum = ls.flatten.sum := by
  induction ls with
  | nil => simp
  | cons a as ih =>
    rw [List.map_cons, List.sum_cons, ih, List.flatten_cons, List.sum_append]

theorem length_flatten_pos (ls : List (List ℚ)) (h0 : ls ≠ [])
    (h1 : ∀ l ∈ ls, l ≠ []) : 0 < ls.flatten.length := by
  cases ls with
  | nil => exact absurd rfl h0
  | cons a as =>
    have ha := h1 a (by simp)
    cases a with
    | nil => exact absurd rfl ha
    | cons x xs => simp

theorem merge2_moments (n0 n1 s0 s1 t0 t1 : ℚ) (h0 : n0 ≠ 0) (h1 : n1 ≠ 0)
    (h01 : n0 + n1 ≠ 0) :
    (t0 - s0 ^ 2 / n0) + (t1 - s1 ^ 2 / n1) +
      1 / (n0 * n1 * (n0 + n1)) * square (n1 * s0 - n0 * s1) =
      (t0 + t1) - (s0 + s1) ^ 2 / (n0 + n1) := by
  simp only [square]
  field_simp
  ring

theorem merge4_moments (na nb nc nd sa sb sc sd ta tb tc td : ℚ)
    (h1 : na ≠ 0) (h2 : nb ≠ 0) (h3 : nc ≠ 0) (h4 : nd ≠ 0)
    (h12 : na + nb ≠ 0) (h34 : nc + nd ≠ 0) (h : na + nb + (nc + nd) ≠ 0) :
    combineUni 0 [na, nb, nc, nd] [sa, sb, sc, sd]
      [ta - sa ^ 2 / na, tb - sb ^ 2 / nb, tc - sc ^ 2 / nc, td - sd ^ 2 / nd] =
      ta + tb + tc + td - (sa + sb + sc + sd) ^ 2 / (na + nb + (nc + nd)) := by
  simp only [combineUni, square]
  field_simp
  ring

theorem foldl_update_char (l : List ℚ) (h : l ≠ []) :
    l.foldl univariate_accumulator.update ufresh =
      ⟨(l.length : ℚ), (l.length : ℚ), l.sum, Qm l⟩ := by
  induction l using List.reverseRecOn with
  | nil => exact absurd rfl h
  | append_singleton l x ih =>
    cases l with
    | nil =>
      simp [univariate_accumulator.update, ufresh, Qm, sumSq]
    | cons y ys =>
      rw [List.foldl_append, ih (by simp), List.foldl_cons, List.foldl_nil]
      have hge : (0:ℚ) ≤ (ys.length : ℚ) := by positivity
      have h1 : ((y :: ys).length : ℚ) ≠ 0 := by
        simp only [List.length_cons]; push_cast; linarith
      have h2 : ((y :: ys).length : ℚ) + 1 ≠ 0 := by
        simp only [List.length_cons]; push_cast; linarith
      simp only [univariate_accumulator.update, univariate_accumulator.mk.injEq, Qm, sumSq,
        List.map_append, List.sum_append, List.length_append, List.map_cons, List.map_nil,
        List.sum_cons, List.sum_nil, List.length_cons, List.length_singleton, List.length_nil]
      push_cast
      push_cast at h1 h2
      refine ⟨by ring, by ring, by ring, ?_⟩
      field_simp
      ring

theorem combineUni_char : ∀ (k : ℕ) (slices : List (List ℚ)),
    slices.length = 4 * 2 ^ k → (∀ l ∈ slices, l ≠ []) →
    combineUni k (slices.map fun l => (l.length : ℚ)) (slices.map List.sum)
      (slices.map Qm) = Qm slices.flatten := by
  intro k
  induction k with
  | zero =>
    intro slices hlen hne
    rcases slices with _ | ⟨a, _ | ⟨b, _ | ⟨c, _ | ⟨d, _ | ⟨e, r⟩⟩⟩⟩⟩ <;>
      simp only [List.length_nil, List.length_cons, pow_zero, mul_one] at hlen <;>
      try omega
    have hla : (0:ℚ) < (a.length : ℚ) := by
      exact_mod_cast List.length_pos.mpr (hne a (by simp))
    have hlb : (0:ℚ) < (b.length : ℚ) := by
      exact_mod_cast List.length_pos.mpr (hne b (by simp))
    have hlc : (0:ℚ) < (c.length : ℚ) := by
      exact_mod_cast List.length_pos.mpr (hne c (by simp))
    have hld : (0:ℚ) < (d.length : ℚ) := by
      exact_mod_cast List.length_pos.mpr (hne d (by simp))
    simp only [List.map_cons, List.map_nil, Qm]
    rw [merge4_moments _ _ _ _ _ _ _ _ _ _ _ _ hla.ne' hlb.ne' hlc.ne' hld.ne'
      (by positivity) (by positivity) (by positivity)]
    simp only [List.flatten_cons, List.flatten_nil, List.append_nil, sumSq_append,
      List.sum_append, List.length_append]
    push_cast
    ring
  | succ k ih =>
    intro slices hlen hne
    have hpow : 4 * 2 ^ (k + 1) = 4 * 2 ^ k + 4 * 2 ^ k := by rw [pow_succ]; ring
    have hk4 : 0 < 4 * 2 ^ k := by positivity
    have hA : (slices.take (4 * 2 ^ k)).length = 4 * 2 ^ k := by
      rw [List.length_take]; omega
    have hB : (slices.drop (4 * 2 ^ k)).length = 4 * 2 ^ k := by
      rw [List.length_drop]; omega
    have hneA : ∀ l ∈ slices.take (4 * 2 ^ k), l ≠ [] :=
      fun l hl => hne l (List.take_subset _ _ hl)
    have hneB : ∀ l ∈ slices.drop (4 * 2 ^ k), l ≠ [] :=
      fun l hl => hne l (List.drop_subset _ _ hl)
    have hAne : slices.take (4 * 2 ^ k) ≠ [] := by
      intro hcon; rw [hcon] at hA; simp only [List.length_nil] at hA; omega
    have hBne : slices.drop (4 * 2 ^ k) ≠ [] := by
      intro hcon; rw [hcon] at hB; simp only [List.length_nil] at hB; omega
    have hn0 : (0:ℚ) < ((slices.take (4 * 2 ^ k)).flatten.length : ℚ) := by
      exact_mod_cast length_flatten_pos _ hAne hneA
    have hn1 : (0:ℚ) < ((slices.drop (4 * 2 ^ k)).flatten.length : ℚ) := by
      exact_mod_cast length_flatten_pos _ hBne hneB
    simp only [combineUni]
    rw [← List.map_take, ← List.map_take, ← List.map_take,
      ← List.map_drop, ← List.map_drop, ← List.map_drop,
      natCast_length_sum, natCast_length_sum, sum_map_sum, sum_map_sum,
      ih _ hA hneA, ih _ hB hneB]
    simp only [Qm]
    rw [merge2_moments _ _ _ _ (sumSq (slices.take (4 * 2 ^ k)).flatten)
      (sumSq (slices.drop (4 * 2 ^ k)).flatten) hn0.ne' hn1.ne' (by positivity)]
    conv_rhs => rw [← List.take_append_drop (4 * 2 ^ k) slices]
    rw [List.flatten_append]
    simp only [sumSq_append, List.sum_append, List.length_append]
    push_cast
    ring

theorem bulkLoop_eq (s : ℕ) : ∀ (t : ℕ) (acc : List univariate_accumulator) (iter : List ℚ),
    bulkLoop s t acc iter = ((chunksOf s t iter).foldl vupdate acc, iter.drop (s * t)) := by
  intro t
  induction t with
  | zero => intro acc iter; simp [bulkLoop, chunksOf]
  | succ t ih =>
    intro acc iter
    rw [bulkLoop, ih, chunksOf, List.foldl_cons, List.drop_drop, Nat.mul_succ, Nat.add_comm]

theorem chunksOf_take (s : ℕ) : ∀ (t : ℕ) (l : List ℚ),
    chunksOf s t (l.take (s * t)) = chunksOf s t l := by
  intro t
  induction t with
  | zero => intro l; rfl
  | succ t ih =>
    intro l
    rw [chunksOf, chunksOf, Nat.mul_succ, Nat.add_comm, List.take_take, List.drop_take]
    have h1 : min s (s + s * t) = s := by omega
    have h2 : s + s * t - s = s * t := by omega
    rw [h1, h2, ih]

theorem chunksOf_flatten (s : ℕ) : ∀ (t : ℕ) (l : List ℚ),
    (chunksOf s t l).flatten = l.take (s * t) := by
  intro t
  induction t with
  | zero => intro l; rfl
  | succ t ih =>
    intro l
    rw [chunksOf, List.flatten_cons, ih, Nat.mul_succ, Nat.add_comm, List.take_add]

/-! ## Reachability invariant and weighted-update lemmas -/

theorem ureachable_inv (st : univariate_accumulator) (h : UReachable st) :
    0 ≤ st.sum_w ∧ 0 ≤ st.sum_w_old ∧ 0 ≤ st.sum_xx ∧
      (st.sum_w = 0 → st.sum_x = 0) ∧ (st.sum_w ≠ 0 → st.sum_w_old = st.sum_w) := by
  induction h with
  | fresh => simp [ufresh]
  | step st x _ ih =>
    obtain ⟨hw, hwo, hxx, hx0, hold⟩ := ih
    simp only [univariate_accumulator.update]
    refine ⟨by linarith, by linarith, ?_, ?_, fun _ => trivial⟩
    · have h1 : 0 ≤ (st.sum_w * x - st.sum_x) * (st.sum_w * x - st.sum_x) :=
        mul_self_nonneg _
      have hd : 0 ≤ (st.sum_w + 1) * st.sum_w_old := by positivity
      have := div_nonneg h1 hd
      linarith
    · intro hcon
      linarith
  | stepW st x w hw0 _ ih =>
    obtain ⟨hw, hwo, hxx, hx0, hold⟩ := ih
    simp only [univariate_accumulator.updateW]
    refine ⟨by linarith, by linarith, ?_, ?_, fun _ => trivial⟩
    · have h1 : 0 ≤ (st.sum_w * (x * w) - st.sum_x * w) *
          (st.sum_w * (x * w) - st.sum_x * w) := mul_self_nonneg _
      have hd : 0 ≤ w * (st.sum_w + w) * st.sum_w_old := by positivity
      have := div_nonneg h1 hd
      linarith
    · intro hcon
      have hww : st.sum_w = 0 ∧ w = 0 := by constructor <;> linarith
      rw [hx0 hww.1, hww.2]
      ring

theorem iterate_update_char (v W S Q : ℚ) (hW : 0 < W) : ∀ (w : ℕ),
    (fun st => univariate_accumulator.update st v)^[w] ⟨W, W, S, Q⟩ =
      ⟨W + w, W + w, S + w * v, Q + (W * v - S) ^ 2 * (1 / W - 1 / (W + w))⟩ := by
  intro w
  induction w with
  | zero =>
    simp only [Function.iterate_zero, id_eq, univariate_accumulator.mk.injEq, Nat.cast_zero]
    refine ⟨by ring, by ring, by ring, by ring⟩
  | succ w ih =>
    rw [Function.iterate_succ_apply', ih]
    have hw : (0:ℚ) < W + w := by positivity
    have hw1 : (0:ℚ) < W + w + 1 := by positivity
    simp only [univariate_accumulator.update, univariate_accumulator.mk.injEq]
    push_cast
    refine ⟨by ring, by ring, by ring, ?_⟩
    field_simp
    ring

theorem combineUni_nonneg : ∀ (k : ℕ) (ns ss qs : List ℚ),
    (∀ n ∈ ns, 0 ≤ n) → (∀ q ∈ qs, 0 ≤ q) → 0 ≤ combineUni k ns ss qs := by
  intro k
  induction k with
  | zero =>
    intro ns ss qs hn hq
    rcases ns with _ | ⟨n0, _ | ⟨n1, _ | ⟨n2, _ | ⟨n3, nr⟩⟩⟩⟩
    · exact le_refl 0
    · exact le_refl 0
    · exact le_refl 0
    · exact le_refl 0
    rcases ss with _ | ⟨s0, _ | ⟨s1, _ | ⟨s2, _ | ⟨s3, sr⟩⟩⟩⟩
    · exact le_refl 0
    · exact le_refl 0
    · exact le_refl 0
    · exact le_refl 0
    rcases qs with _ | ⟨q0, _ | ⟨q1, _ | ⟨q2, _ | ⟨q3, qr⟩⟩⟩⟩
    · exact le_refl 0
    · exact le_refl 0
    · exact le_refl 0
    · exact le_refl 0
    have h0 := hn n0 (by simp)
    have h1 := hn n1 (by simp)
    have h2 := hn n2 (by simp)
    have h3 := hn n3 (by simp)
    have g0 := hq q0 (by simp)
    have g1 := hq q1 (by simp)
    have g2 := hq q2 (by simp)
    have g3 := hq q3 (by simp)
    simp only [combineUni, square]
    have f01 : 0 ≤ 1 / (n0 * (n0 + n1) * n1) := by positivity
    have f23 : 0 ≤ 1 / (n2 * (n2 + n3) * n3) := by positivity
    have f : 0 ≤ 1 / ((n0 + n1) * ((n0 + n1) + (n2 + n3)) * (n2 + n3)) := by positivity
    have t01 : 0 ≤ 1 / (n0 * (n0 + n1) * n1) *
        ((n0 * s1 - n1 * s0) * (n0 * s1 - n1 * s0)) :=
      mul_nonneg f01 (mul_self_nonneg _)
    have t23 : 0 ≤ 1 / (n2 * (n2 + n3) * n3) *
        ((n2 * s3 - n3 * s2) * (n2 * s3 - n3 * s2)) :=
      mul_nonneg f23 (mul_self_nonneg _)
    have t : 0 ≤ 1 / ((n0 + n1) * ((n0 + n1) + (n2 + n3)) * (n2 + n3)) *
        (((n0 + n1) * (s2 + s3) - (n2 + n3) * (s0 + s1)) *
          ((n0 + n1) * (s2 + s3) - (n2 + n3) * (s0 + s1))) :=
      mul_nonneg f (mul_self_nonneg _)
    linarith
  | succ k ih =>
    intro ns ss qs hn hq
    simp only [combineUni, square]
    have hn0 : 0 ≤ (ns.take (4 * 2 ^ k)).sum :=
      List.sum_nonneg fun n h => hn n (List.take_subset _ _ h)
    have hn1 : 0 ≤ (ns.drop (4 * 2 ^ k)).sum :=
      List.sum_nonneg fun n h => hn n (List.drop_subset _ _ h)
    have hq0 := ih (ns.take (4 * 2 ^ k)) (ss.take (4 * 2 ^ k)) (qs.take (4 * 2 ^ k))
      (fun n h => hn n (List.take_subset _ _ h)) (fun q h => hq q (List.take_subset _ _ h))
    have hq1 := ih (ns.drop (4 * 2 ^ k)) (ss.drop (4 * 2 ^ k)) (qs.drop (4 * 2 ^ k))
      (fun n h => hn n (List.drop_subset _ _ h)) (fun q h => hq q (List.drop_subset _ _ h))
    have hf : 0 ≤ 1 / ((ns.take (4 * 2 ^ k)).sum * (ns.drop (4 * 2 ^ k)).sum *
        ((ns.take (4 * 2 ^ k)).sum + (ns.drop (4 * 2 ^ k)).sum)) := by positivity
    have ht : 0 ≤ 1 / ((ns.take (4 * 2 ^ k)).sum * (ns.drop (4 * 2 ^ k)).sum *
        ((ns.take (4 * 2 ^ k)).sum + (ns.drop (4 * 2 ^ k)).sum)) *
        (((ns.drop (4 * 2 ^ k)).sum * (ss.take (4 * 2 ^ k)).sum -
          (ns.take (4 * 2 ^ k)).sum * (ss.drop (4 * 2 ^ k)).sum) *
         ((ns.drop (4 * 2 ^ k)).sum * (ss.take (4 * 2 ^ k)).sum -
          (ns.take (4 * 2 ^ k)).sum * (ss.drop (4 * 2 ^ k)).sum)) :=
      mul_nonneg hf (mul_self_nonneg _)
    linarith

theorem correlation_eq_claim (sxx syy sxy : ℚ) :
    correlation sxx syy sxy = correlation_claim sxx syy sxy := by
  unfold correlation correlation_claim
  by_cases hx : 0 < sxx
  · by_cases hy : 0 < syy
    · have h1 : ¬¬(sxx > 0 ∧ syy > 0) := not_not_intro ⟨hx, hy⟩
      have h2 : ¬(sxx ≤ 0 ∧ syy ≤ 0) := fun h => absurd hx (not_lt.mpr h.1)
      rw [if_neg h1, if_neg h2]
    · have hy' : syy ≤ 0 := not_lt.mp hy
      have hne : sxx ≠ syy := by intro h; rw [h] at hx; linarith
      have hsp : ((sxx * syy : ℚ) : ℝ) ≤ 0 := by
        have : (sxx * syy : ℚ) ≤ 0 := mul_nonpos_of_nonneg_of_nonpos hx.le hy'
        exact_mod_cast this
      have h1 : ¬(sxx > 0 ∧ syy > 0) := fun h => hy h.2
      have h2 : ¬(sxx ≤ 0 ∧ syy ≤ 0) := fun h => absurd hx (not_lt.mpr h.1)
      rw [if_pos h1, if_neg hne, if_neg h2, Real.sqrt_eq_zero_of_nonpos hsp, div_zero]
  · have hx' : sxx ≤ 0 := not_lt.mp hx
    have h1 : ¬(sxx > 0 ∧ syy > 0) := fun h => hx h.1
    by_cases hy : 0 < syy
    · have hne : sxx ≠ syy := by intro h; rw [h] at hx'; linarith
      have hsp : ((sxx * syy : ℚ) : ℝ) ≤ 0 := by
        have : (sxx * syy : ℚ) ≤ 0 := mul_nonpos_of_nonpos_of_nonneg hx' hy.le
        exact_mod_cast this
      have h2 : ¬(sxx ≤ 0 ∧ syy ≤ 0) := fun h => absurd hy (not_lt.mpr h.2)
      rw [if_pos h1, if_neg hne, if_neg h2, Real.sqrt_eq_zero_of_nonpos hsp, div_zero]
    · have h2 : sxx ≤ 0 ∧ syy ≤ 0 := ⟨hx', not_lt.mp hy⟩
      rw [if_pos h1, if_pos h2]

theorem corr_const_const :
    (mk_bivariate_statistics
      (baccumulate_scalar [3, 3, 3] [5, 5, 5]).stats).correlation = 1 := by
  have hst : baccumulate_scalar [3, 3, 3] [5, 5, 5] = ⟨3, 3, 9, 15, 0, 0, 0⟩ := by
    norm_num [baccumulate_scalar, bivariate_accumulator.update, bfresh, List.zip]
  rw [hst]
  norm_num [mk_bivariate_statistics, bivariate_accumulator.stats, correlation]

theorem corr_const_nonconst :
    (mk_bivariate_statistics
      (baccumulate_scalar [3, 3, 3] [1, 2, 4]).stats).correlation = 0 := by
  have hst : baccumulate_scalar [3, 3, 3] [1, 2, 4] = ⟨3, 3, 9, 7, 0, 14/3, 0⟩ := by
    norm_num [baccumulate_scalar, bivariate_accumulator.update, bfresh, List.zip]
  rw [hst]
  norm_num [mk_bivariate_statistics, bivariate_accumulator.stats, correlation]

/-- The width-4 base case of the univariate `combine` divides by exactly the
three denominators named by `combine4_denoms`. -/
theorem combineUni_base_denoms (n0 n1 n2 n3 s0 s1 s2 s3 q0 q1 q2 q3 : ℚ) :
    combineUni 0 [n0, n1, n2, n3] [s0, s1, s2, s3] [q0, q1, q2, q3] =
      q0 + q1 + 1 / (combine4_denoms n0 n1 n2 n3).1 * square (n0 * s1 - n1 * s0) +
        (q2 + q3 + 1 / (combine4_denoms n0 n1 n2 n3).2.1 * square (n2 * s3 - n3 * s2)) +
        1 / (combine4_denoms n0 n1 n2 n3).2.2 *
          square ((n0 + n1) * (s2 + s3) - (n2 + n3) * (s0 + s1)) := rfl

/-- Invariant of positively-weighted reachability: `sum_xx` is nonnegative,
`sum_w` is nonnegative and `sum_w_old` is strictly positive, so every update
divisor along the trace is positive. -/
theorem ureachablePos_inv (st : univariate_accumulator) (h : UReachablePos st) :
    0 ≤ st.sum_xx ∧ 0 ≤ st.sum_w ∧ 0 < st.sum_w_old := by
  induction h with
  | fresh => norm_num [ufresh]
  | step st x _ ih =>
    obtain ⟨hxx, hw, hwo⟩ := ih
    simp only [univariate_accumulator.update]
    refine ⟨?_, by linarith, by linarith⟩
    have h1 : 0 ≤ (st.sum_w * x - st.sum_x) * (st.sum_w * x - st.sum_x) :=
      mul_self_nonneg _
    have hd : 0 ≤ (st.sum_w + 1) * st.sum_w_old := by positivity
    have := div_nonneg h1 hd
    linarith
  | stepW st x w hw0 _ ih =>
    obtain ⟨hxx, hw, hwo⟩ := ih
    simp only [univariate_accumulator.updateW]
    refine ⟨?_, by linarith, by linarith⟩
    have h1 : 0 ≤ (st.sum_w * (x * w) - st.sum_x * w) *
        (st.sum_w * (x * w) - st.sum_x * w) := mul_self_nonneg _
    have hd : 0 ≤ w * (st.sum_w + w) * st.sum_w_old := by positivity
    have := div_nonneg h1 hd
    linarith

/-! ## Claim theorems -/

/-- Claim C1, code bug: the weighted update never skips `w == 0`.  It always
adds `dx * dx / updateW_divisor`, and that divisor is zero whenever `w = 0`,
so the IEEE code computes `0/0 = NaN` into the univariate `sum_xx` from every
state (`updateW?` returns `none`); from the fresh bivariate state the factor
`f = 0 / ((0 + 0) * 1)` is likewise `0/0 = NaN`, poisoning all three
residuals; and independently of division semantics the update mutates the
fresh state (`sum_w_old` goes from 1 to 0).  The specified behavior — `w == 0`
is a no-op that signals no error and leaves count, sum and variance
unchanged — therefore does not hold of the code. -/
theorem c1_zero_weight_not_skipped :
    (∀ (st : univariate_accumulator) (x w : ℚ),
      (st.updateW x w).sum_xx = st.sum_xx +
        (st.sum_w * (x * w) - st.sum_x * w) * (st.sum_w * (x * w) - st.sum_x * w) /
          updateW_divisor st w) ∧
    (∀ st : univariate_accumulator, updateW_divisor st 0 = 0) ∧
    (∀ (st : univariate_accumulator) (x : ℚ), st.updateW? x 0 = none) ∧
    updateW_fdenom bfresh 0 = 0 ∧
    bivariate_accumulator.updateW? bfresh 3 5 0 = none ∧
    univariate_accumulator.updateW ufresh 3 0 ≠ ufresh := by
  refine ⟨fun st x w => rfl, fun st => by simp [updateW_divisor], fun st x => ?_,
    by norm_num [updateW_fdenom, bfresh], ?_, ?_⟩
  · simp [univariate_accumulator.updateW?, updateW_divisor]
  · simp [bivariate_accumulator.updateW?, updateW_fdenom, bfresh]
  · simp [univariate_accumulator.updateW, ufresh]

/-- Claim C2: for lane states obtained by accumulating `4 * 2 ^ k` disjoint
nonempty slices (all lane weights positive), the vector `stats()` reduction —
horizontal sums plus `combine` — returns exactly the `(sum_w, sum_x, sum_xx)`
tuple of a single sequential scalar accumulation over the concatenation of the
slices, so block-level accumulation agrees with single-pass accumulation for
every such partition. -/
theorem c2_combine_eq_sequential (k : ℕ) (slices : List (List ℚ))
    (hlen : slices.length = 4 * 2 ^ k) (hne : ∀ l ∈ slices, l ≠ []) :
    vstats k (slices.map fun l => l.foldl univariate_accumulator.update ufresh) =
      (slices.flatten.foldl univariate_accumulator.update ufresh).stats := by
  have hsne : slices ≠ [] := by
    intro hcon; rw [hcon] at hlen; simp only [List.length_nil] at hlen
    have : 0 < 4 * 2 ^ k := by positivity
    omega
  have hfne : slices.flatten ≠ [] :=
    List.length_pos.mp (length_flatten_pos slices hsne hne)
  rw [foldl_update_char _ hfne]
  unfold vstats univariate_accumulator.stats
  rw [List.map_map, List.map_map, List.map_map]
  have e1 : slices.map (univariate_accumulator.sum_w ∘
      fun l => l.foldl univariate_accumulator.update ufresh) =
      slices.map fun l => (l.length : ℚ) := by
    apply List.map_congr_left
    intro l hl
    simp [Function.comp, foldl_update_char l (hne l hl)]
  have e2 : slices.map (univariate_accumulator.sum_x ∘
      fun l => l.foldl univariate_accumulator.update ufresh) =
      slices.map List.sum := by
    apply List.map_congr_left
    intro l hl
    simp [Function.comp, foldl_update_char l (hne l hl)]
  have e3 : slices.map (univariate_accumulator.sum_xx ∘
      fun l => l.foldl univariate_accumulator.update ufresh) =
      slices.map Qm := by
    apply List.map_congr_left
    intro l hl
    simp [Function.comp, foldl_update_char l (hne l hl)]
  rw [e1, e2, e3, natCast_length_sum, sum_map_sum, combineUni_char k slices hlen hne]

/-- Witness for C2: four singleton slices, width 4. -/
theorem c2_combine_eq_sequential_witness :
    ([[1], [2], [3], [4]] : List (List ℚ)).length = 4 * 2 ^ 0 ∧
    (∀ l ∈ ([[1], [2], [3], [4]] : List (List ℚ)), l ≠ []) ∧
    vstats 0 (([[1], [2], [3], [4]] : List (List ℚ)).map
        fun l => l.foldl univariate_accumulator.update ufresh) =
      (([[1], [2], [3], [4]] : List (List ℚ)).flatten.foldl
        univariate_accumulator.update ufresh).stats :=
  ⟨by norm_num, by simp, c2_combine_eq_sequential 0 _ (by norm_num) (by simp)⟩

/-- Claim C3: the width-4 base case of the univariate `combine` is the
composition of pairwise Schubert-Gertz merges (lanes 01, lanes 23, then both
halves); for larger widths the recursion bisects the lanes, combines each half
and merges the two halves with the same pairwise formula; and the bivariate
`combine` forms its cross residual with the cross-product form in place of the
square, both in the base case and in the recursion. -/
theorem c3_merge_formulas :
    (∀ n0 s0 q0 n1 s1 q1 n2 s2 q2 n3 s3 q3 : ℚ,
      combineUni 0 [n0, n1, n2, n3] [s0, s1, s2, s3] [q0, q1, q2, q3] =
        pair_merge (n0 + n1) (s0 + s1) (pair_merge n0 s0 q0 n1 s1 q1)
          (n2 + n3) (s2 + s3) (pair_merge n2 s2 q2 n3 s3 q3)) ∧
    (∀ (k : ℕ) (ns ss qs : List ℚ),
      combineUni (k + 1) ns ss qs =
        pair_merge ((ns.take (4 * 2 ^ k)).sum) ((ss.take (4 * 2 ^ k)).sum)
          (combineUni k (ns.take (4 * 2 ^ k)) (ss.take (4 * 2 ^ k)) (qs.take (4 * 2 ^ k)))
          ((ns.drop (4 * 2 ^ k)).sum) ((ss.drop (4 * 2 ^ k)).sum)
          (combineUni k (ns.drop (4 * 2 ^ k)) (ss.drop (4 * 2 ^ k))
            (qs.drop (4 * 2 ^ k)))) ∧
    (∀ n0 sx0 sy0 sxy0 n1 sx1 sy1 sxy1 n2 sx2 sy2 sxy2 n3 sx3 sy3 sxy3
        sxx0 sxx1 sxx2 sxx3 syy0 syy1 syy2 syy3 : ℚ,
      (combineBiv 0 [n0, n1, n2, n3] [sx0, sx1, sx2, sx3] [sy0, sy1, sy2, sy3]
        [sxx0, sxx1, sxx2, sxx3] [syy0, syy1, syy2, syy3]
        [sxy0, sxy1, sxy2, sxy3]).2.2 =
        cross_merge (n0 + n1) (sx0 + sx1) (sy0 + sy1)
          (cross_merge n0 sx0 sy0 sxy0 n1 sx1 sy1 sxy1)
          (n2 + n3) (sx2 + sx3) (sy2 + sy3)
          (cross_merge n2 sx2 sy2 sxy2 n3 sx3 sy3 sxy3)) ∧
    (∀ (k : ℕ) (ns sxs sys sxxs syys sxys : List ℚ),
      (combineBiv (k + 1) ns sxs sys sxxs syys sxys).2.2 =
        cross_merge ((ns.take (4 * 2 ^ k)).sum) ((sxs.take (4 * 2 ^ k)).sum)
          ((sys.take (4 * 2 ^ k)).sum)
          (combineBiv k (ns.take (4 * 2 ^ k)) (sxs.take (4 * 2 ^ k))
            (sys.take (4 * 2 ^ k)) (sxxs.take (4 * 2 ^ k)) (syys.take (4 * 2 ^ k))
            (sxys.take (4 * 2 ^ k))).2.2
          ((ns.drop (4 * 2 ^ k)).sum) ((sxs.drop (4 * 2 ^ k)).sum)
          ((sys.drop (4 * 2 ^ k)).sum)
          (combineBiv k (ns.drop (4 * 2 ^ k)) (sxs.drop (4 * 2 ^ k))
            (sys.drop (4 * 2 ^ k)) (sxxs.drop (4 * 2 ^ k)) (syys.drop (4 * 2 ^ k))
            (sxys.drop (4 * 2 ^ k))).2.2) := by
  refine ⟨?_, ?_, ?_, ?_⟩ <;> intros <;>
    simp only [combineUni, combineBiv, pair_merge, cross_merge, square] <;> ring

/-- Claim C4: the accumulation driver equals the phase structure stated by the
specification (scalar-only path for short inputs, exactly `m = n - n mod s`
elements through the vector accumulator in length-`s` chunks, remainder through
a scalar accumulator seeded via `load_state`, direct derivation when the
remainder is empty), and the chunks plus the remainder partition the input, so
every element is consumed exactly once. -/
theorem c4_driver_structure (k : ℕ) (xs : List ℚ) :
    accumulate k xs = accumulate_claim k xs ∧
    (chunksOf (4 * 2 ^ k)
        ((xs.length - xs.length % (4 * 2 ^ k)) / (4 * 2 ^ k))
        (xs.take (xs.length - xs.length % (4 * 2 ^ k)))).flatten ++
      xs.drop (xs.length - xs.length % (4 * 2 ^ k)) = xs := by
  have hs : 0 < 4 * 2 ^ k := by positivity
  have hdm := Nat.div_add_mod xs.length (4 * 2 ^ k)
  have hm : xs.length - xs.length % (4 * 2 ^ k) =
      (4 * 2 ^ k) * (xs.length / (4 * 2 ^ k)) := by omega
  have hdiv : (xs.length - xs.length % (4 * 2 ^ k)) / (4 * 2 ^ k) =
      xs.length / (4 * 2 ^ k) := by
    rw [hm, Nat.mul_div_cancel_left _ hs]
  constructor
  · simp only [accumulate, accumulate_claim]
    by_cases hn : xs.length < 4 * 2 ^ k
    · simp only [hn, if_true]
    · simp only [hn, if_false]
      rw [bulkLoop_eq]
      rw [hdiv, ← chunksOf_take (4 * 2 ^ k) (xs.length / (4 * 2 ^ k)) xs, ← hm, ← hdiv]
  · rw [chunksOf_flatten, hdiv, ← hm, List.take_take, Nat.min_self, List.take_append_drop]

/-- Claim C5: accumulating a single unweighted value `x` from the empty
accumulator yields state `(sum_w, sum_w_old, sum_x, sum_xx) = (1, 1, x, 0)`,
hence count 1, sum `x`, mean `x` and variance 0, and the divisor
`(sum_w + 1) * sum_w_old` of the first update is 1, not 0, thanks to the
`sum_w_old = 1` initialization. -/
theorem c5_single_sample (x : ℚ) :
    univariate_accumulator.update ufresh x = ⟨1, 1, x, 0⟩ ∧
    (ufresh.sum_w + 1) * ufresh.sum_w_old ≠ 0 ∧
    mk_univariate_statistics (univariate_accumulator.update ufresh x).stats =
      ⟨1, x, 0, x, 0, 0⟩ := by
  refine ⟨?_, by norm_num [ufresh], ?_⟩
  · simp [univariate_accumulator.update, ufresh]
  · simp [univariate_accumulator.update, ufresh, univariate_accumulator.stats,
      mk_univariate_statistics]

/-- Claim C6: accumulating `[1, 2, 3, 4]` unweighted through the driver yields
count 4, sum 10, ssr 5, mean 5/2, variance 5/4 and sample variance 5/3, both
at SIMD width 4 (vector path) and at SIMD width 8 (scalar path, since n < s). -/
theorem c6_concrete_scenario :
    accumulate 0 [1, 2, 3, 4] = ⟨4, 10, 5, 5/2, 5/4, 5/3⟩ ∧
    accumulate 1 [1, 2, 3, 4] = ⟨4, 10, 5, 5/2, 5/4, 5/3⟩ := by
  constructor
  · norm_num [accumulate, bulkLoop, vupdate, vstats, combineUni, square,
      mk_univariate_statistics, univariate_accumulator.update,
      univariate_accumulator.stats, univariate_accumulator.load_state, ufresh,
      List.replicate]
  · norm_num [accumulate, mk_univariate_statistics, univariate_accumulator.update,
      univariate_accumulator.stats, ufresh]

/-- Claim C7: the correlation computed by the `bivariate_statistics`
constructor coincides with the specified definition
(`sum_xy / sqrt(sum_xx * sum_yy)`, with the degenerate rule 1 when both
residuals are equal and 0 otherwise); in particular two constant sequences
give correlation 1 and a constant paired with a non-constant sequence gives
correlation 0. -/
theorem c7_correlation_definition :
    (∀ sxx syy sxy : ℚ, correlation sxx syy sxy = correlation_claim sxx syy sxy) ∧
    (mk_bivariate_statistics
      (baccumulate_scalar [3, 3, 3] [5, 5, 5]).stats).correlation = 1 ∧
    (mk_bivariate_statistics
      (baccumulate_scalar [3, 3, 3] [1, 2, 4]).stats).correlation = 0 :=
  ⟨correlation_eq_claim, corr_const_const, corr_const_nonconst⟩

/-- Claim C8: from every reachable accumulator state, a single weighted update
with a positive integer weight `w` produces exactly the state of `w`
successive unweighted updates of the same value. -/
theorem c8_weighted_eq_repeated (st : univariate_accumulator) (h : UReachable st)
    (v : ℚ) (w : ℕ) (hw : 1 ≤ w) :
    st.updateW v w = (fun st => univariate_accumulator.update st v)^[w] st := by
  obtain ⟨hw0, hwo0, hxx0, hx0, hold⟩ := ureachable_inv st h
  by_cases hz : st.sum_w = 0
  · obtain ⟨W, Wo, S, Q⟩ := st
    simp only at hz hx0 hold hw0 hwo0 hxx0
    subst hz
    rw [hx0 rfl]
    obtain ⟨w, rfl⟩ : ∃ u, w = u + 1 := ⟨w - 1, by omega⟩
    rw [Function.iterate_succ_apply]
    have h1 : univariate_accumulator.update ⟨0, Wo, 0, Q⟩ v = ⟨1, 1, v, Q⟩ := by
      simp only [univariate_accumulator.update, univariate_accumulator.mk.injEq]
      refine ⟨by ring, by ring, by ring, by simp⟩
    rw [h1, iterate_update_char v 1 v Q one_pos w]
    simp only [univariate_accumulator.updateW, univariate_accumulator.mk.injEq]
    push_cast
    refine ⟨by ring, by ring, by ring, ?_⟩
    simp
  · have hWpos : 0 < st.sum_w := lt_of_le_of_ne hw0 (Ne.symm hz)
    obtain ⟨W, Wo, S, Q⟩ := st
    simp only at hz hold hWpos
    rw [hold hz]
    have hwq : (0:ℚ) < (w : ℚ) := by exact_mod_cast hw
    have hWw : (0:ℚ) < W + w := by positivity
    rw [iterate_update_char v W S Q hWpos w]
    simp only [univariate_accumulator.updateW, univariate_accumulator.mk.injEq]
    refine ⟨by ring, by ring, by ring, ?_⟩
    field_simp
    ring

/-- Witness for C8: the state after one update of 2, weight 3 versus three
repeated updates of the value 4. -/
theorem c8_weighted_eq_repeated_witness :
    UReachable (univariate_accumulator.update ufresh 2) ∧ 1 ≤ 3 ∧
    (univariate_accumulator.update ufresh 2).updateW 4 ((3 : ℕ) : ℚ) =
      (fun st => univariate_accumulator.update st 4)^[3]
        (univariate_accumulator.update ufresh 2) :=
  ⟨UReachable.step _ 2 UReachable.fresh, by norm_num,
    c8_weighted_eq_repeated _ (UReachable.step _ 2 UReachable.fresh) 4 3 (by norm_num)⟩

/-- Claim C9, counterexample: the non-negative-weight legs of the claim fail
on the code.  A weighted update with the non-negative weight 0 from a valid
state divides by zero — under IEEE arithmetic `sum_xx` becomes `0/0 = NaN`,
not a nonnegative value (`updateW?` returns `none`) — and the width-4 combine
over the non-negative lane weights `(0, 1, 1, 1)` has a zero `f01` divisor,
so its IEEE factor is `1/0 = inf`, not the finite non-negative quantity the
claim asserts. -/
theorem c9_counterexample :
    (univariate_accumulator.load_state 1 2 0).updateW? 3 0 = none ∧
    (combine4_denoms 0 1 1 1).1 = 0 := by
  constructor
  · simp [univariate_accumulator.updateW?, updateW_divisor,
      univariate_accumulator.load_state]
  · norm_num [combine4_denoms]

/-- Claim C9 (amended): `sum_xx` is 0 on the empty accumulator and stays
nonnegative on every state reachable by unweighted updates and weighted
updates with strictly positive weight; along every such trace the divisors of
the update divisions are strictly positive (so the exact model coincides with
the IEEE code); and the `combine` of lane states with strictly positive lane
weights and nonnegative lane residuals is nonnegative, every correction term
being a square over a positive denominator. -/
theorem c9_sum_xx_invariant :
    ufresh.sum_xx = 0 ∧
    (∀ st, UReachablePos st → 0 ≤ st.sum_xx ∧ 0 ≤ st.sum_w ∧ 0 < st.sum_w_old) ∧
    (∀ st, UReachablePos st → 0 < (st.sum_w + 1) * st.sum_w_old) ∧
    (∀ (st : univariate_accumulator) (w : ℚ), UReachablePos st → 0 < w →
      0 < updateW_divisor st w) ∧
    (∀ (k : ℕ) (ns ss qs : List ℚ), (∀ n ∈ ns, 0 < n) → (∀ q ∈ qs, 0 ≤ q) →
      0 ≤ combineUni k ns ss qs) := by
  refine ⟨rfl, ureachablePos_inv, ?_, ?_, ?_⟩
  · intro st h
    obtain ⟨_, hw, hwo⟩ := ureachablePos_inv st h
    positivity
  · intro st w h hw0
    obtain ⟨_, hw, hwo⟩ := ureachablePos_inv st h
    unfold updateW_divisor
    positivity
  · intro k ns ss qs hn hq
    exact combineUni_nonneg k ns ss qs (fun n h => (hn n h).le) hq

/-- Witness for C9: a concrete positively-reachable state, a concrete positive
update divisor, and a concrete width-4 combine instance. -/
theorem c9_sum_xx_invariant_witness :
    UReachablePos (univariate_accumulator.update ufresh 3) ∧ (0:ℚ) < 2 ∧
    0 ≤ (univariate_accumulator.update ufresh 3).sum_xx ∧
    0 < updateW_divisor (univariate_accumulator.update ufresh 3) 2 ∧
    0 ≤ combineUni 0 [1, 1, 1, 1] [1, 2, 3, 4] [0, 0, 0, 0] :=
  ⟨UReachablePos.step ufresh 3 UReachablePos.fresh, by norm_num,
    (c9_sum_xx_invariant.2.1 _ (UReachablePos.step ufresh 3 UReachablePos.fresh)).1,
    c9_sum_xx_invariant.2.2.2.1 _ 2 (UReachablePos.step ufresh 3 UReachablePos.fresh)
      (by norm_num),
    c9_sum_xx_invariant.2.2.2.2 0 [1, 1, 1, 1] [1, 2, 3, 4] [0, 0, 0, 0]
      (by norm_num) (by norm_num)⟩

/-- Claim C10: for every accumulator state, the unweighted update equals the
weighted update with unit weight, for both the univariate and the bivariate
accumulator. -/
theorem c10_unit_weight (su : univariate_accumulator) (x : ℚ)
    (sb : bivariate_accumulator) (y z : ℚ) :
    su.updateW x 1 = su.update x ∧ sb.updateW y z 1 = sb.update y z := by
  constructor
  · simp only [univariate_accumulator.update, univariate_accumulator.updateW]
    ring_nf
  · simp only [bivariate_accumulator.update, bivariate_accumulator.updateW]
    ring_nf

end Vstat

